import Mathlib

/-!
Verification of the MCTS engine of mcts-rs (src/lib.rs) against its design
specification.  The engine is shallowly embedded: the generic Game trait
becomes a record of operations, the tri-state Children enum and the Node
struct become a mutual inductive, and the recursive Node::play_out receives
explicit fuel (its recursion depth is bounded only by the game, so the Rust
function is partial).  The c_uint counters are modelled as unbounded
naturals, and f32 priority and win-rate arithmetic is modelled exactly:
priority values as "infinity or a rational" (every finite f32 is rational),
and the default UCB1 formula over the real numbers.
-/

namespace Mcts

/-- End status of a game, as in the source enum Status (lib.rs lines 35-41),
evaluated for the player about to move. -/
inductive Status where
  | unfinished
  | win
  | lose
  | draw
deriving DecidableEq

/-- Priority values: f32 results of Game::priority, which are either
+infinity (for unvisited nodes) or finite; every finite f32 is a rational
number, so the finite case carries a rational. -/
inductive FVal where
  | inf : FVal
  | fin : ℚ → FVal
deriving DecidableEq

/-- The comparison a > b on priority values, mirroring the f32 comparison
`priority > max_priority` of the source selection loops. -/
def FVal.gtb : FVal → FVal → Bool
  | .inf, .inf => false
  | .inf, .fin _ => true
  | .fin _, .inf => false
  | .fin a, .fin b => decide (b < a)

mutual
/-- The tri-state children field of a node (enum Children, lib.rs lines
57-62): NotExpanded, Expanded with an ordered child list, or PlayerWin
carrying whether the fixed player has won. -/
inductive Children (S A : Type) : Type where
  | notExpanded : Children S A
  | expanded : List (Node S A) → Children S A
  | playerWin : Bool → Children S A

/-- A search-tree node (struct Node, lib.rs lines 127-135): game state,
whether the fixed player is the one to move, the action that produced this
state, win and visit counters, and the children state. -/
inductive Node (S A : Type) : Type where
  | mk : S → Bool → A → ℕ → ℕ → Children S A → Node S A
end

variable {S A : Type}

def Node.game : Node S A → S
  | .mk g _ _ _ _ _ => g

def Node.isCurrPlayer : Node S A → Bool
  | .mk _ b _ _ _ _ => b

def Node.prevAct : Node S A → A
  | .mk _ _ a _ _ _ => a

def Node.wins : Node S A → ℕ
  | .mk _ _ _ w _ _ => w

def Node.visits : Node S A → ℕ
  | .mk _ _ _ _ v _ => v

def Node.children : Node S A → Children S A
  | .mk _ _ _ _ _ c => c

/-- The Game trait of the source (lib.rs lines 7-32), as a record of its
operations.  The trait method `priority` (overridable, with the UCB1 default
of lines 24-31) is a field; its f32 result is modelled by FVal.  It receives
the state (Rust &self) and the win, visit and parent-visit counters. -/
structure Game (S A : Type) where
  next : S → A → S
  nextActions : S → List A
  status : S → Status
  priority : S → ℕ → ℕ → ℕ → FVal

/-- The default body of Game::priority (lib.rs lines 25-31), with the f32
arithmetic modelled over the exact reals: +infinity (the top element) when
visits is 0, else wins/visits plus the exploration term
sqrt(2 * ln(parent_visits) / visits). -/
noncomputable def priority_default (win visits parentVisits : ℕ) : WithTop ℝ :=
  if visits = 0 then ⊤
  else (((win : ℝ) / (visits : ℝ)
    + Real.sqrt (2 * Real.log (parentVisits : ℝ) / (visits : ℝ)) : ℝ) : WithTop ℝ)

/-- Children::has_expanded of the source (lib.rs lines 65-71). -/
def Children.has_expanded : Children S A → Bool
  | .notExpanded => false
  | _ => true

/-- Node::new of the source (lib.rs lines 138-141): fresh statistics and
NotExpanded children. -/
def Node.new (game : S) (isCurrPlayer : Bool) (prevAct : A) : Node S A :=
  .mk game isCurrPlayer prevAct 0 0 .notExpanded

/-- Children::expand of the source (lib.rs lines 73-88): a no-op if already
expanded, otherwise the status of the game decides between a PlayerWin leaf
and an Expanded list with one fresh node per legal action. -/
def Children.expand (g : Game S A) (c : Children S A) (game : S)
    (isCurrentPlayer : Bool) : Children S A :=
  if c.has_expanded then c
  else
    match g.status game with
    | .win => .playerWin isCurrentPlayer
    | .draw => .playerWin false
    | .lose => .playerWin (!isCurrentPlayer)
    | .unfinished =>
        .expanded ((g.nextActions game).map fun a =>
          Node.new (g.next game a) (!isCurrentPlayer) a)

/-- Node::priority of the source (lib.rs lines 148-151): delegates to the
game's priority method. -/
def Node.priority (g : Game S A) (n : Node S A) (parentVisits : ℕ) : FVal :=
  g.priority n.game n.wins n.visits parentVisits

/-- The scanning loop shared by Node::play_out (lib.rs lines 167-179) and
Mct::play_out (lines 252-263): `i` is the index of the head of the remaining
list, `maxP` the best priority seen so far and `best` its index.  A child of
infinite priority is selected at once (the loop breaks); otherwise a strictly
greater priority replaces the best-so-far. -/
def selectLoop : List FVal → ℕ → FVal → ℕ → ℕ
  | [], _, _, best => best
  | p :: ps, i, maxP, best =>
    if p = FVal.inf then i
    else if FVal.gtb p maxP then selectLoop ps (i + 1) p i
    else selectLoop ps (i + 1) maxP best

/-- Index selected by the scan of Node::play_out / Mct::play_out over the
priorities of a child list: the first child seeds the best-so-far and is
taken immediately when its priority is infinite. -/
def selectIdx : List FVal → ℕ
  | [] => 0
  | p0 :: ps => if p0 = FVal.inf then 0 else selectLoop ps 1 p0 0

/-- Node::play_out of the source (lib.rs lines 153-190), with explicit fuel
standing for the (unbounded) recursion depth; `none` models fuel exhaustion
and the two panics (the unreachable NotExpanded arm, and
split_first_mut().unwrap() on an empty expanded list).  Returns the updated
node together with the propagated has_player_win boolean. -/
def Node.play_out (g : Game S A) : ℕ → Node S A → Option (Node S A × Bool)
  | 0, _ => none
  | fuel + 1, .mk game isCurr prevAct wins visits children =>
    let visits1 := visits + 1
    match Children.expand g children game isCurr with
    | .notExpanded => none
    | .playerWin w =>
        some (.mk game isCurr prevAct (if w then wins + 1 else wins) visits1
          (.playerWin w), w)
    | .expanded l =>
      match l with
      | [] => none
      | c0 :: rest =>
        let i := selectIdx ((c0 :: rest).map fun c => Node.priority g c visits1)
        match (c0 :: rest).get? i with
        | none => none
        | some ci =>
          match Node.play_out g fuel ci with
          | none => none
          | some (ci2, w) =>
              some (.mk game isCurr prevAct (if w then wins + 1 else wins)
                visits1 (.expanded ((c0 :: rest).set i ci2)), w)

/-- The root wrapper (struct Mct, lib.rs lines 209-215). -/
structure Mct (S A : Type) where
  game : S
  isCurrPlayer : Bool
  visits : ℕ
  children : List (Node S A)

/-- Mct::new of the source (lib.rs lines 218-226). -/
def Mct.new (g : Game S A) (game : S) (isCurrentPlayer : Bool) : Mct S A :=
  { game := game
    isCurrPlayer := isCurrentPlayer
    visits := 0
    children := (g.nextActions game).map fun a =>
      Node.new (g.next game a) (!isCurrentPlayer) a }

/-- Mct::play_out of the source (lib.rs lines 241-267): increments the root
visit counter; with a non-empty child list it runs the same selection scan
(with the already incremented counter as parent visits) and recurses into the
selected child, discarding the returned boolean. -/
def Mct.play_out (g : Game S A) : ℕ → Mct S A → Option (Mct S A)
  | 0, _ => none
  | fuel + 1, m =>
    let visits1 := m.visits + 1
    match m.children with
    | [] => some { m with visits := visits1 }
    | c0 :: rest =>
      let i := selectIdx ((c0 :: rest).map fun c => Node.priority g c visits1)
      match (c0 :: rest).get? i with
      | none => none
      | some ci =>
        match Node.play_out g fuel ci with
        | none => none
        | some (ci2, _) =>
            some { m with visits := visits1, children := (c0 :: rest).set i ci2 }

/-- The error outcomes of Mct::next, which in the source are irrecoverable
panics: no matching child for the action, the unreachable NotExpanded state
after expansion, and the "game finished" panic on a PlayerWin child. -/
inductive MctErr where
  | noActionMatch
  | unreachableNotExpanded
  | gameFinished
deriving DecidableEq

/-- The child-lookup loop of Mct::next (lib.rs lines 271-279): scans the
whole list and keeps the last child whose recorded action equals the
argument. -/
def findLast [DecidableEq A] (a : A) (l : List (Node S A)) : Option (Node S A) :=
  l.foldl (fun acc c => if c.prevAct = a then some c else acc) none

/-- Mct::next of the source (lib.rs lines 269-290): looks up the child for
the committed action (panicking if none matches), forces expansion of that
child, and promotes its game, visits and expanded child list into the root
while flipping the player flag; a PlayerWin child panics with
"game finished". -/
def Mct.next [DecidableEq A] (g : Game S A) (m : Mct S A) (action : A) :
    Except MctErr (Mct S A) :=
  match findLast action m.children with
  | none => .error .noActionMatch
  | some node =>
    match Children.expand g node.children node.game node.isCurrPlayer with
    | .notExpanded => .error .unreachableNotExpanded
    | .expanded v =>
        .ok { game := node.game, isCurrPlayer := !m.isCurrPlayer,
              visits := node.visits, children := v }
    | .playerWin _ => .error .gameFinished

/-- The win rate wins/visits of a node, the f32 ratio of Mct::best_action
modelled as an exact rational. -/
def Node.rate (n : Node S A) : ℚ :=
  (n.wins : ℚ) / (n.visits : ℚ)

/-- The scanning loop of Mct::best_action (lib.rs lines 301-311): children
with zero visits are skipped, a strictly greater win rate replaces the
best-so-far. -/
def bestLoop : List (Node S A) → Node S A → ℚ → Node S A
  | [], best, _ => best
  | c :: cs, best, maxRate =>
    if c.visits = 0 then bestLoop cs best maxRate
    else if maxRate < c.rate then bestLoop cs c c.rate
    else bestLoop cs best maxRate

/-- Mct::best_action of the source (lib.rs lines 292-314): panics ("game
finished", modelled as none) on an empty child list; otherwise the first
child seeds the scan, with win rate 0.0 when it is unvisited. -/
def Mct.best_action (m : Mct S A) : Option A :=
  match m.children with
  | [] => none
  | c0 :: rest =>
    some (bestLoop rest c0 (if c0.visits = 0 then 0 else c0.rate)).prevAct

/-- A small concrete game over natural-number states and actions, used to
exercise the engine at concrete inputs: state 0 is unfinished with actions
0 and 1, every other state is a draw; the priority method is the usual
"infinite iff unvisited" shape with a constant finite value. -/
def exGame : Game ℕ ℕ :=
  { next := fun s _ => s + 1
    nextActions := fun _ => [0, 1]
    status := fun s => if s = 0 then .unfinished else .draw
    priority := fun _ _ v _ => if v = 0 then .inf else .fin 1 }

/-- A concrete game whose every state with an even number is a draw and
every odd one a win for the player about to move. -/
def exGameDrawWin : Game ℕ ℕ :=
  { next := fun s _ => s + 1
    nextActions := fun _ => []
    status := fun s => if s % 2 = 0 then .draw else .win
    priority := fun _ _ v _ => if v = 0 then .inf else .fin 1 }

/-- A terminal child node: its children state is already PlayerWin true. -/
def exChild : Node ℕ ℕ := .mk 1 true 0 0 0 (.playerWin true)

/-- A node whose children state is Expanded with the single terminal child
exChild. -/
def exNode : Node ℕ ℕ := .mk 0 true 0 0 0 (.expanded [exChild])

/-- An unvisited child recording action 10. -/
def exN0 : Node ℕ ℕ := .mk 1 true 10 0 0 .notExpanded

/-- A child recording action 11, visited 5 times with 0 wins. -/
def exN1 : Node ℕ ℕ := .mk 2 true 11 0 5 .notExpanded

/-- A root whose first child is unvisited and whose second child has 5
visits and 0 wins. -/
def exM : Mct ℕ ℕ := { game := 0, isCurrPlayer := true, visits := 5, children := [exN0, exN1] }

/-- A child recording action 12 with an already expanded child list. -/
def exGoodChild : Node ℕ ℕ := .mk 0 true 12 3 9 (.expanded [exN0])

/-- A root holding exGoodChild (action 12) and exN1 (action 11, which under
exGame expands to a Draw leaf). -/
def exRoot : Mct ℕ ℕ :=
  { game := 5, isCurrPlayer := false, visits := 7, children := [exGoodChild, exN1] }

/-- A root with no children at all. -/
def exEmptyRoot : Mct ℕ ℕ :=
  { game := 9, isCurrPlayer := true, visits := 0, children := [] }

/-- The root exRoot promotes exGoodChild when action 12 is committed: this is
the expected result, spelling out the preserved statistics. -/
def exPromoted : Mct ℕ ℕ :=
  { game := exGoodChild.game
    isCurrPlayer := !exRoot.isCurrPlayer
    visits := exGoodChild.visits
    children := [exN0] }

theorem Node.game_mk (s : S) (b : Bool) (a : A) (w v : ℕ) (c : Children S A) :
    (Node.mk s b a w v c).game = s := rfl

theorem Node.isCurrPlayer_mk (s : S) (b : Bool) (a : A) (w v : ℕ) (c : Children S A) :
    (Node.mk s b a w v c).isCurrPlayer = b := rfl

theorem Node.prevAct_mk (s : S) (b : Bool) (a : A) (w v : ℕ) (c : Children S A) :
    (Node.mk s b a w v c).prevAct = a := rfl

theorem Node.wins_mk (s : S) (b : Bool) (a : A) (w v : ℕ) (c : Children S A) :
    (Node.mk s b a w v c).wins = w := rfl

theorem Node.visits_mk (s : S) (b : Bool) (a : A) (w v : ℕ) (c : Children S A) :
    (Node.mk s b a w v c).visits = v := rfl

theorem Node.children_mk (s : S) (b : Bool) (a : A) (w v : ℕ) (c : Children S A) :
    (Node.mk s b a w v c).children = c := rfl

/-- Expanding an already expanded children state returns it unchanged. -/
theorem Children.expand_of_has_expanded (g : Game S A) (c : Children S A) (s : S)
    (b : Bool) (h : c.has_expanded = true) : Children.expand g c s b = c := by
  unfold Children.expand
  rw [if_pos h]

/-- The result of Children.expand is never NotExpanded: it always reports
has_expanded. -/
theorem Children.expand_has_expanded (g : Game S A) (c : Children S A) (s : S)
    (b : Bool) : (Children.expand g c s b).has_expanded = true := by
  unfold Children.expand
  by_cases h : c.has_expanded = true
  · rw [if_pos h]; exact h
  · rw [if_neg h]
    cases hs : g.status s <;> simp [Children.has_expanded]

/-- C8 (confirmed): Children::expand is idempotent: on a children state that
is already Expanded or a leaf (has_expanded) it is a no-op, and expanding
twice equals expanding once. -/
theorem expand_idempotent (g : Game S A) (c : Children S A) (s : S) (b : Bool) :
    (c.has_expanded = true → Children.expand g c s b = c) ∧
    Children.expand g (Children.expand g c s b) s b = Children.expand g c s b :=
  ⟨fun h => Children.expand_of_has_expanded g c s b h,
   Children.expand_of_has_expanded g _ s b (Children.expand_has_expanded g c s b)⟩

/-- Witness for C8 at a concrete leaf children state. -/
theorem expand_idempotent_witness :
    Children.expand exGame (Children.playerWin true) 0 true
      = (Children.playerWin true : Children ℕ ℕ) ∧
    Children.expand exGame
        (Children.expand exGame (Children.playerWin true) 0 true) 0 true
      = Children.expand exGame (Children.playerWin true) 0 true :=
  ⟨(expand_idempotent exGame (Children.playerWin true) 0 true).1 rfl,
   (expand_idempotent exGame (Children.playerWin true) 0 true).2⟩

/-- C2 counterexample: under exGameDrawWin, state 0 has status Draw and
state 1 has status Win; with is_current_player = false both expand to the
very same children state PlayerWin false (the loss outcome for the player).
The children state carries a boolean, not a three-valued {0.0, 0.5, 1.0}
quantity, so the Draw outcome is not distinct from the loss outcome. -/
theorem draw_leaf_not_distinct :
    exGameDrawWin.status 0 = Status.draw ∧
    exGameDrawWin.status 1 = Status.win ∧
    Children.expand exGameDrawWin (Children.notExpanded : Children ℕ ℕ) 0 false
      = Children.playerWin false ∧
    Children.expand exGameDrawWin (Children.notExpanded : Children ℕ ℕ) 1 false
      = Children.playerWin false :=
  ⟨rfl, rfl, rfl, rfl⟩

/-- C2 (corrected): for a node whose game status is Draw, expand sets the
children state to the terminal PlayerWin false, whatever the
is_current_player flag is; this is the same outcome the Win status yields
when is_current_player is false (a loss for the player), so draws are not
stored distinctly from losses. -/
theorem draw_expands_to_player_loss (g : Game S A) (s : S) (b : Bool)
    (h : g.status s = Status.draw) :
    Children.expand g (Children.notExpanded : Children S A) s b
      = Children.playerWin false := by
  unfold Children.expand
  rw [if_neg (by simp [Children.has_expanded]), h]

/-- Witness for C2 at a concrete draw state. -/
theorem draw_expands_to_player_loss_witness :
    Children.expand exGameDrawWin (Children.notExpanded : Children ℕ ℕ) 0 true
      = Children.playerWin false :=
  draw_expands_to_player_loss exGameDrawWin 0 true rfl

/-- The lookup fold of Mct::next leaves its accumulator unchanged when no
element of the list records the sought action. -/
theorem findLast_of_no_match [DecidableEq A] (a : A) (l : List (Node S A))
    (acc : Option (Node S A)) (h : ∀ c ∈ l, c.prevAct ≠ a) :
    l.foldl (fun acc c => if c.prevAct = a then some c else acc) acc = acc := by
  induction l generalizing acc with
  | nil => rfl
  | cons c cs ih =>
    simp only [List.foldl_cons]
    rw [if_neg (h c (List.mem_cons_self c cs))]
    exact ih _ fun x hx => h x (List.mem_cons_of_mem c hx)

/-- C7 (confirmed): Mct::next fails fatally (the noActionMatch panic of the
source expect) when no child records the committed action; the empty child
list is the special case of this. -/
theorem next_fails_on_unknown_action [DecidableEq A] (g : Game S A)
    (m : Mct S A) (a : A) (h : ∀ c ∈ m.children, c.prevAct ≠ a) :
    Mct.next g m a = Except.error MctErr.noActionMatch := by
  unfold Mct.next findLast
  rw [findLast_of_no_match a m.children none h]

/-- Witness for C7: a terminal root (no children) and a root whose children
record other actions both fail with the no-match panic. -/
theorem next_fails_on_unknown_action_witness :
    Mct.next exGame exEmptyRoot 3 = Except.error MctErr.noActionMatch ∧
    Mct.next exGame exRoot 99 = Except.error MctErr.noActionMatch := by
  constructor
  · exact next_fails_on_unknown_action exGame exEmptyRoot 3 (by simp [exEmptyRoot])
  · exact next_fails_on_unknown_action exGame exRoot 99 (by
      intro c hc
      fin_cases hc <;> decide)

/-- C10 (confirmed): when the child matching the committed action is (or,
after the forced expand, becomes) a terminal PlayerWin leaf, Mct::next fails
fatally with the "game finished" panic instead of promoting the child. -/
theorem next_fails_on_finished_child [DecidableEq A] (g : Game S A)
    (m : Mct S A) (a : A) (c : Node S A) (b : Bool)
    (h1 : findLast a m.children = some c)
    (h2 : Children.expand g c.children c.game c.isCurrPlayer
      = Children.playerWin b) :
    Mct.next g m a = Except.error MctErr.gameFinished := by
  simp only [Mct.next, h1, h2]

/-- Witness for C10: committing action 11 of exRoot finds exN1, whose
NotExpanded children expand to a Draw leaf, and fails. -/
theorem next_fails_on_finished_child_witness :
    Mct.next exGame exRoot 11 = Except.error MctErr.gameFinished :=
  next_fails_on_finished_child exGame exRoot 11 exN1 false rfl rfl

/-- C6 (confirmed): when the child matching the committed action expands
(possibly as a no-op) to an Expanded list v, Mct::next promotes the child:
the new root carries exactly the child game, the child visit counter and
the list v, with the player flag flipped; nothing is recomputed. -/
theorem next_promotes_child_stats [DecidableEq A] (g : Game S A)
    (m : Mct S A) (a : A) (c : Node S A) (v : List (Node S A))
    (h1 : findLast a m.children = some c)
    (h2 : Children.expand g c.children c.game c.isCurrPlayer
      = Children.expanded v) :
    Mct.next g m a = Except.ok
      { game := c.game
        isCurrPlayer := !m.isCurrPlayer
        visits := c.visits
        children := v } := by
  simp only [Mct.next, h1, h2]

/-- Witness for C6: committing action 12 of exRoot promotes exGoodChild,
preserving its visit count 9, its game 0, and its already expanded child
list [exN0]. -/
theorem next_promotes_child_stats_witness :
    Mct.next exGame exRoot 12 = Except.ok exPromoted :=
  next_promotes_child_stats exGame exRoot 12 exGoodChild [exN0] rfl rfl

/-- C9 (confirmed): each successful Node::play_out increments the visit
counter of the node by exactly one and its win counter by at most one, so
the invariant wins ≤ visits is preserved; a node created by Node::new starts
with both counters at zero, hence satisfies the invariant. -/
theorem play_out_stats_invariant :
    (∀ (g : Game S A) (fuel : ℕ) (n r : Node S A) (w : Bool),
      Node.play_out g fuel n = some (r, w) →
      r.visits = n.visits + 1 ∧ r.wins ≤ n.wins + 1 ∧
        (n.wins ≤ n.visits → r.wins ≤ r.visits)) ∧
    ∀ (s : S) (b : Bool) (a : A),
      (Node.new s b a).wins ≤ (Node.new s b a).visits := by
  constructor
  · intro g fuel n r w h
    cases fuel with
    | zero => simp [Node.play_out] at h
    | succ fuel =>
      cases n with
      | mk s0 b0 a0 w0 v0 c0 =>
        simp only [Node.play_out] at h
        split at h
        · simp at h
        · simp only [Option.some.injEq, Prod.mk.injEq] at h
          obtain ⟨h1, h2⟩ := h
          subst h1
          subst h2
          refine ⟨rfl, ?_, ?_⟩
          · simp only [Node.wins_mk]
            split <;> omega
          · intro hwv
            simp only [Node.wins_mk, Node.visits_mk] at hwv ⊢
            split <;> omega
        · split at h
          · simp at h
          · split at h
            · simp at h
            · split at h
              · simp at h
              · simp only [Option.some.injEq, Prod.mk.injEq] at h
                obtain ⟨h1, h2⟩ := h
                subst h1
                subst h2
                refine ⟨rfl, ?_, ?_⟩
                · simp only [Node.wins_mk]
                  split <;> omega
                · intro hwv
                  simp only [Node.wins_mk, Node.visits_mk] at hwv ⊢
                  split <;> omega
  · intro s b a
    simp [Node.new, Node.wins_mk, Node.visits_mk]

/-- Witness for C9: one playout on the terminal child exChild yields the
node with counters (wins, visits) = (1, 1), an increment of exactly one
visit and at most one win, preserving wins ≤ visits. -/
theorem play_out_stats_invariant_witness :
    (Node.mk 1 true (0 : ℕ) 1 1 (Children.playerWin true) : Node ℕ ℕ).visits
      = exChild.visits + 1 ∧
    (Node.mk 1 true (0 : ℕ) 1 1 (Children.playerWin true) : Node ℕ ℕ).wins
      ≤ exChild.wins + 1 ∧
    (Node.mk 1 true (0 : ℕ) 1 1 (Children.playerWin true) : Node ℕ ℕ).wins
      ≤ (Node.mk 1 true (0 : ℕ) 1 1 (Children.playerWin true) : Node ℕ ℕ).visits := by
  have h := play_out_stats_invariant.1 exGame 1 exChild
    (Node.mk 1 true (0 : ℕ) 1 1 (Children.playerWin true)) true rfl
  exact ⟨h.1, h.2.1, h.2.2 (by decide)⟩

/-- C1 counterexample: exNode has Expanded children [exChild]; playout on
exNode selects exChild (index 0); exChild's own playout returns true and
exNode's playout also returns true, the very same value, not its complement.
Reading the booleans as win probabilities (true = 1, false = 0), the claimed
identity value = 1 - child value fails: 1 is not 1 - 1. -/
theorem play_out_value_flip_fails :
    exNode.children = Children.expanded [exChild] ∧
    selectIdx ([exChild].map fun c => Node.priority exGame c (exNode.visits + 1)) = 0 ∧
    (Node.play_out exGame 2 exNode).map Prod.snd = some true ∧
    (Node.play_out exGame 1 exChild).map Prod.snd = some true :=
  ⟨rfl, rfl, rfl, rfl⟩

/-- C1 (corrected): for a node whose children state is Expanded, play_out
selects a child by the priority scan and returns exactly the boolean value
of that child's recursive playout: no complement (negamax sign flip) is
applied at any level, the has_player_win boolean propagating unchanged; the
node's win counter is then incremented iff that shared value is true. -/
theorem play_out_value_propagates_unflipped (g : Game S A) (fuel : ℕ)
    (n r : Node S A) (l : List (Node S A)) (w : Bool)
    (hc : n.children = Children.expanded l)
    (h : Node.play_out g (fuel + 1) n = some (r, w)) :
    ∃ ci ci2,
      l.get? (selectIdx (l.map fun c => Node.priority g c (n.visits + 1))) = some ci ∧
      Node.play_out g fuel ci = some (ci2, w) ∧
      r.wins = (if w then n.wins + 1 else n.wins) ∧
      r.visits = n.visits + 1 := by
  cases n with
  | mk s0 b0 a0 w0 v0 c0 =>
    rw [Node.children_mk] at hc
    subst hc
    simp only [Node.play_out,
      Children.expand_of_has_expanded g (Children.expanded l) s0 b0 rfl] at h
    cases l with
    | nil => simp at h
    | cons c0 rest =>
      simp only [Node.visits_mk, Node.wins_mk]
      split at h
      · simp at h
      · rename_i c1 rest1 heq
        injection heq with e1 e2
        subst e1
        subst e2
        split at h
        · simp at h
        · split at h
          · simp at h
          · rename_i xg ci hci xr ci2 w1 hrec
            simp only [Option.some.injEq, Prod.mk.injEq] at h
            obtain ⟨h1, h2⟩ := h
            subst h1
            subst h2
            exact ⟨ci, ci2, hci, hrec, rfl, rfl⟩

/-- Witness for C1: the instantiation of the corrected statement at exNode,
whose selected child is exChild and whose playout value true equals the
child's value. -/
theorem play_out_value_propagates_unflipped_witness :
    ∃ ci ci2,
      [exChild].get?
        (selectIdx ([exChild].map fun c => Node.priority exGame c (exNode.visits + 1)))
        = some ci ∧
      Node.play_out exGame 1 ci = some (ci2, true) ∧
      (Node.mk 0 true (0 : ℕ) 1 1
          (Children.expanded [Node.mk 1 true 0 1 1 (Children.playerWin true)])
        : Node ℕ ℕ).wins
        = (if true then exNode.wins + 1 else exNode.wins) ∧
      (Node.mk 0 true (0 : ℕ) 1 1
          (Children.expanded [Node.mk 1 true 0 1 1 (Children.playerWin true)])
        : Node ℕ ℕ).visits = exNode.visits + 1 :=
  play_out_value_propagates_unflipped exGame 1 exNode
    (Node.mk 0 true (0 : ℕ) 1 1
      (Children.expanded [Node.mk 1 true 0 1 1 (Children.playerWin true)]))
    [exChild] true rfl rfl

/-- When the k-th priority of the remaining list is infinite and no earlier
one is, the selection loop stops there and returns i + k, whatever the
accumulators hold. -/
theorem selectLoop_of_inf (ps : List FVal) :
    ∀ (k i : ℕ) (maxP : FVal) (best : ℕ),
      ps.get? k = some FVal.inf → (∀ j, j < k → ps.get? j ≠ some FVal.inf) →
      selectLoop ps i maxP best = i + k := by
  induction ps with
  | nil => intro k i maxP best hk _; simp at hk
  | cons p ps ih =>
    intro k i maxP best hk hlt
    cases k with
    | zero =>
      simp only [List.get?_cons_zero, Option.some.injEq] at hk
      subst hk
      simp [selectLoop]
    | succ k =>
      have hp : ¬ p = FVal.inf := by
        intro hcon
        exact hlt 0 (Nat.succ_pos k) (by simp [hcon])
      have h1 : ps.get? k = some FVal.inf := by simpa using hk
      have h2 : ∀ j, j < k → ps.get? j ≠ some FVal.inf := by
        intro j hj
        have := hlt (j + 1) (by omega)
        simpa using this
      simp only [selectLoop]
      rw [if_neg hp]
      by_cases hg : FVal.gtb p maxP = true
      · rw [if_pos hg, ih k (i + 1) p i h1 h2]
        omega
      · rw [if_neg hg, ih k (i + 1) maxP best h1 h2]
        omega

/-- With no infinite priority in the remaining list, the selection loop
either keeps the seeded best (when nothing strictly beats the seeded maximum)
or lands on an element strictly greater than the seed that also strictly
beats every element before it and is not beaten by any element of the
list (the earliest strict maximum). -/
theorem selectLoop_argmax (ps : List FVal) :
    ∀ (i best : ℕ) (m : ℚ), FVal.inf ∉ ps →
      (selectLoop ps i (FVal.fin m) best = best ∧
        ∀ p ∈ ps, FVal.gtb p (FVal.fin m) = false) ∨
      (∃ k v, ps.get? k = some (FVal.fin v) ∧
        selectLoop ps i (FVal.fin m) best = i + k ∧ m < v ∧
        (∀ j pj, j < k → ps.get? j = some pj → FVal.gtb (FVal.fin v) pj = true) ∧
        (∀ j pj, ps.get? j = some pj → FVal.gtb pj (FVal.fin v) = false)) := by
  induction ps with
  | nil =>
    intro i best m _
    left
    exact ⟨rfl, by simp⟩
  | cons p ps ih =>
    intro i best m hinf
    obtain ⟨a, rfl⟩ : ∃ a, p = FVal.fin a := by
      cases p with
      | inf => exact absurd (List.mem_cons_self _ _) hinf
      | fin a => exact ⟨a, rfl⟩
    have hinf2 : FVal.inf ∉ ps := fun hmem => hinf (List.mem_cons_of_mem _ hmem)
    simp only [selectLoop]
    rw [if_neg (by simp)]
    by_cases hcmp : m < a
    · rw [if_pos (by simp [FVal.gtb, hcmp])]
      rcases ih (i + 1) i a hinf2 with ⟨heq, hall⟩ | ⟨k, v, hk, heq, hmv, hpre, hdom⟩
      · right
        refine ⟨0, a, by simp, by simpa using heq, hcmp, ?_, ?_⟩
        · intro j pj hj
          omega
        · intro j pj hj
          cases j with
          | zero =>
            simp only [List.get?_cons_zero, Option.some.injEq] at hj
            subst hj
            simp [FVal.gtb]
          | succ j =>
            exact hall pj (List.get?_mem (by simpa using hj))
      · right
        refine ⟨k + 1, v, by simpa using hk, by rw [heq]; omega,
          lt_trans hcmp hmv, ?_, ?_⟩
        · intro j pj hj hpj
          cases j with
          | zero =>
            simp only [List.get?_cons_zero, Option.some.injEq] at hpj
            subst hpj
            simp only [FVal.gtb, decide_eq_true_eq]
            exact hmv
          | succ j =>
            exact hpre j pj (by omega) (by simpa using hpj)
        · intro j pj hpj
          cases j with
          | zero =>
            simp only [List.get?_cons_zero, Option.some.injEq] at hpj
            subst hpj
            simp only [FVal.gtb, decide_eq_false_iff_not]
            exact not_lt.mpr (le_of_lt hmv)
          | succ j =>
            exact hdom j pj (by simpa using hpj)
    · rw [if_neg (by simp [FVal.gtb, hcmp])]
      rcases ih (i + 1) best m hinf2 with ⟨heq, hall⟩ | ⟨k, v, hk, heq, hmv, hpre, hdom⟩
      · left
        refine ⟨heq, ?_⟩
        intro q hq
        rcases List.mem_cons.mp hq with rfl | hq2
        · simp only [FVal.gtb, decide_eq_false_iff_not]
          exact hcmp
        · exact hall q hq2
      · right
        refine ⟨k + 1, v, by simpa using hk, by rw [heq]; omega, hmv, ?_, ?_⟩
        · intro j pj hj hpj
          cases j with
          | zero =>
            simp only [List.get?_cons_zero, Option.some.injEq] at hpj
            subst hpj
            simp only [FVal.gtb, decide_eq_true_eq]
            exact lt_of_le_of_lt (not_lt.mp hcmp) hmv
          | succ j =>
            exact hpre j pj (by omega) (by simpa using hpj)
        · intro j pj hpj
          cases j with
          | zero =>
            simp only [List.get?_cons_zero, Option.some.injEq] at hpj
            subst hpj
            simp only [FVal.gtb, decide_eq_false_iff_not]
            exact not_lt.mpr (le_of_lt (lt_of_le_of_lt (not_lt.mp hcmp) hmv))
          | succ j =>
            exact hdom j pj (by simpa using hpj)

/-- C4 (confirmed): the selection scan over a non-empty priority list (the
priorities of a child list at a given parent visit count) returns the first
index holding an infinite priority, without examining anything after it (the
elements past that index can be replaced arbitrarily); when no priority is
infinite it returns an index holding a priority no other element strictly
exceeds, while strictly exceeding every earlier element (the earliest
maximum, so equal finite priorities keep the earliest child). -/
theorem selection_scan_correct (p0 : FVal) (ps : List FVal) :
    (∀ k, (p0 :: ps).get? k = some FVal.inf →
      (∀ j, j < k → (p0 :: ps).get? j ≠ some FVal.inf) →
      selectIdx (p0 :: ps) = k ∧
        ∀ l2, selectIdx ((p0 :: ps).take (k + 1) ++ l2) = k) ∧
    (FVal.inf ∉ p0 :: ps →
      ∃ q, (p0 :: ps).get? (selectIdx (p0 :: ps)) = some q ∧
        (∀ p ∈ p0 :: ps, FVal.gtb p q = false) ∧
        ∀ j, j < selectIdx (p0 :: ps) →
          ∃ pj, (p0 :: ps).get? j = some pj ∧ FVal.gtb q pj = true) := by
  constructor
  · intro k hk hlt
    cases k with
    | zero =>
      simp only [List.get?_cons_zero, Option.some.injEq] at hk
      subst hk
      exact ⟨by simp [selectIdx], fun l2 => by simp [selectIdx]⟩
    | succ k =>
      have hp0 : ¬ p0 = FVal.inf := by
        intro hcon
        exact hlt 0 (Nat.succ_pos k) (by simp [hcon])
      have h1 : ps.get? k = some FVal.inf := by simpa using hk
      have h2 : ∀ j, j < k → ps.get? j ≠ some FVal.inf := by
        intro j hj
        have := hlt (j + 1) (by omega)
        simpa using this
      have hklen : k < ps.length := by
        by_contra hcon
        rw [List.get?_eq_none.mpr (by omega)] at h1
        exact Option.noConfusion h1
      have htlen : k < (ps.take (k + 1)).length := by
        simp only [List.length_take]
        omega
      constructor
      · simp only [selectIdx]
        rw [if_neg hp0, selectLoop_of_inf ps k 1 p0 0 h1 h2]
        omega
      · intro l2
        simp only [List.take_succ_cons, List.cons_append, selectIdx]
        rw [if_neg hp0, selectLoop_of_inf (ps.take (k + 1) ++ l2) k 1 p0 0
          (by rw [List.get?_append htlen, List.get?_take (by omega)]; exact h1)
          (fun j hj => by
            rw [List.get?_append (by simp only [List.length_take]; omega),
              List.get?_take (by omega)]
            exact h2 j hj)]
        omega
  · intro hinf
    obtain ⟨m, rfl⟩ : ∃ m, p0 = FVal.fin m := by
      cases p0 with
      | inf => exact absurd (List.mem_cons_self _ _) hinf
      | fin m => exact ⟨m, rfl⟩
    have hinf2 : FVal.inf ∉ ps := fun hmem => hinf (List.mem_cons_of_mem _ hmem)
    simp only [selectIdx]
    rw [if_neg (by simp)]
    rcases selectLoop_argmax ps 1 0 m hinf2 with ⟨heq, hall⟩ | ⟨k, v, hk, heq, hmv, hpre, hdom⟩
    · rw [heq]
      refine ⟨FVal.fin m, by simp, ?_, ?_⟩
      · intro p hp
        rcases List.mem_cons.mp hp with rfl | hp2
        · simp [FVal.gtb]
        · exact hall p hp2
      · intro j hj
        exact absurd hj (Nat.not_lt_zero j)
    · rw [heq]
      refine ⟨FVal.fin v, ?_, ?_, ?_⟩
      · have : (1 : ℕ) + k = k + 1 := by omega
        rw [this, List.get?_cons_succ]
        exact hk
      · intro p hp
        rcases List.mem_cons.mp hp with rfl | hp2
        · simp only [FVal.gtb, decide_eq_false_iff_not]
          exact not_lt.mpr (le_of_lt hmv)
        · obtain ⟨j, hj⟩ := List.get?_of_mem hp2
          exact hdom j p hj
      · intro j hj
        cases j with
        | zero =>
          refine ⟨FVal.fin m, by simp, ?_⟩
          simp only [FVal.gtb, decide_eq_true_eq]
          exact hmv
        | succ j =>
          have hjk : j < k := by omega
          have hklen2 : k < ps.length := by
            by_contra hcon
            rw [List.get?_eq_none.mpr (by omega)] at hk
            exact Option.noConfusion hk
          obtain ⟨pj, hpj⟩ : ∃ pj, ps.get? j = some pj := by
            rw [List.get?_eq_get (by omega)]
            exact ⟨_, rfl⟩
          exact ⟨pj, by simpa using hpj, hpre j pj hjk hpj⟩

/-- Witness for C4: in [fin 1, inf, fin 7] the scan stops at the first
infinite priority, index 1, and replacing everything after that index (here
by [fin 9, inf]) cannot change the selection. -/
theorem selection_scan_correct_witness :
    selectIdx [FVal.fin 1, FVal.inf, FVal.fin 7] = 1 ∧
    selectIdx [FVal.fin 1, FVal.inf, FVal.fin 9, FVal.inf] = 1 := by
  constructor
  · exact ((selection_scan_correct (FVal.fin 1) [FVal.inf, FVal.fin 7]).1 1
      rfl (by decide)).1
  · exact ((selection_scan_correct (FVal.fin 1) [FVal.inf]).1 1
      rfl (by decide)).2 [FVal.fin 9, FVal.inf]

/-- The scanning loop of best_action either keeps the seeded best child
(when no visited child in the remaining list strictly beats the seeded
maximum rate) or returns a visited child of the list whose rate strictly
beats the seed and is not beaten by any visited child of the list. -/
theorem bestLoop_spec (cs : List (Node S A)) :
    ∀ (best : Node S A) (maxRate : ℚ),
      (bestLoop cs best maxRate = best ∧
        ∀ c ∈ cs, 0 < c.visits → c.rate ≤ maxRate) ∨
      (∃ c ∈ cs, bestLoop cs best maxRate = c ∧ 0 < c.visits ∧
        maxRate < c.rate ∧ ∀ c2 ∈ cs, 0 < c2.visits → c2.rate ≤ c.rate) := by
  induction cs with
  | nil =>
    intro best maxRate
    left
    exact ⟨rfl, by simp⟩
  | cons c cs ih =>
    intro best maxRate
    simp only [bestLoop]
    by_cases h0 : c.visits = 0
    · rw [if_pos h0]
      rcases ih best maxRate with ⟨heq, hall⟩ | ⟨d, hd, heq, hv, hlt, hall⟩
      · left
        refine ⟨heq, ?_⟩
        intro x hx hvx
        rcases List.mem_cons.mp hx with rfl | hx2
        · omega
        · exact hall x hx2 hvx
      · right
        refine ⟨d, List.mem_cons_of_mem c hd, heq, hv, hlt, ?_⟩
        intro x hx hvx
        rcases List.mem_cons.mp hx with rfl | hx2
        · omega
        · exact hall x hx2 hvx
    · rw [if_neg h0]
      by_cases hcmp : maxRate < c.rate
      · rw [if_pos hcmp]
        rcases ih c c.rate with ⟨heq, hall⟩ | ⟨d, hd, heq, hv, hlt, hall⟩
        · right
          refine ⟨c, List.mem_cons_self c cs, heq, Nat.pos_of_ne_zero h0, hcmp, ?_⟩
          intro x hx hvx
          rcases List.mem_cons.mp hx with rfl | hx2
          · exact le_refl x.rate
          · exact hall x hx2 hvx
        · right
          refine ⟨d, List.mem_cons_of_mem c hd, heq, hv, lt_trans hcmp hlt, ?_⟩
          intro x hx hvx
          rcases List.mem_cons.mp hx with rfl | hx2
          · exact le_of_lt hlt
          · exact hall x hx2 hvx
      · rw [if_neg hcmp]
        rcases ih best maxRate with ⟨heq, hall⟩ | ⟨d, hd, heq, hv, hlt, hall⟩
        · left
          refine ⟨heq, ?_⟩
          intro x hx hvx
          rcases List.mem_cons.mp hx with rfl | hx2
          · exact not_lt.mp hcmp
          · exact hall x hx2 hvx
        · right
          refine ⟨d, List.mem_cons_of_mem c hd, heq, hv, hlt, ?_⟩
          intro x hx hvx
          rcases List.mem_cons.mp hx with rfl | hx2
          · exact le_of_lt (lt_of_le_of_lt (not_lt.mp hcmp) hlt)
          · exact hall x hx2 hvx

/-- C3 counterexample: exM has first child exN0 (action 10, zero visits)
and second child exN1 (action 11, 5 visits, 0 wins).  best_action returns
action 10, the action of the unvisited first child, even though a child with
visits > 0 exists (so the claim's "skipping every child with zero visits
entirely" and "returns some unvisited child's action only when every child
has zero visits" both fail here; the claimed behaviour would return 11). -/
theorem best_action_returns_unvisited_first :
    Mct.best_action exM = some 10 ∧
    exM.children.get? 0 = some exN0 ∧ exN0.visits = 0 ∧ exN0.prevAct = 10 ∧
    exM.children.get? 1 = some exN1 ∧ 0 < exN1.visits ∧ exN1.prevAct = 11 := by
  refine ⟨?_, rfl, rfl, rfl, rfl, by decide, rfl⟩
  simp only [Mct.best_action, bestLoop, exM, exN0, exN1, Node.visits_mk,
    Node.wins_mk, Node.prevAct_mk, Node.rate]
  norm_num [Node.prevAct_mk]

/-- The scanning loop of best_action keeps the seeded best child untouched
when no visited child of the remaining list has a rate strictly above the
seeded maximum (the loop only replaces on a strict improvement). -/
theorem bestLoop_of_no_improvement (cs : List (Node S A)) :
    ∀ (best : Node S A) (maxRate : ℚ),
      (∀ c ∈ cs, 0 < c.visits → c.rate ≤ maxRate) →
      bestLoop cs best maxRate = best := by
  induction cs with
  | nil =>
    intro best maxRate _
    rfl
  | cons c cs ih =>
    intro best maxRate hall
    simp only [bestLoop]
    by_cases h0 : c.visits = 0
    · rw [if_pos h0]
      exact ih best maxRate fun x hx hvx => hall x (List.mem_cons_of_mem c hx) hvx
    · rw [if_neg h0,
        if_neg (not_lt.mpr (hall c (List.mem_cons_self c cs) (Nat.pos_of_ne_zero h0)))]
      exact ih best maxRate fun x hx hvx => hall x (List.mem_cons_of_mem c hx) hvx

/-- C3 (corrected): on an empty child list best_action fails fatally; on a
non-empty list it returns the action of a child that either is visited and
has the greatest wins/visits rate among all visited children, or is the
first child, unvisited but not skipped: it is seeded with rate 0.0 and its
action is returned -- the last conjunct -- whenever no visited child has a
strictly positive rate (in particular, but not only, when every child is
unvisited). -/
theorem best_action_characterization (m : Mct S A) :
    (m.children = [] → Mct.best_action m = none) ∧
    ∀ c0 cs, m.children = c0 :: cs →
      (∃ c, Mct.best_action m = some c.prevAct ∧ (c = c0 ∨ c ∈ cs) ∧
        ((0 < c.visits ∧ ∀ c2 ∈ m.children, 0 < c2.visits → c2.rate ≤ c.rate) ∨
         (c = c0 ∧ c0.visits = 0 ∧
           ∀ c2 ∈ m.children, 0 < c2.visits → c2.rate ≤ 0))) ∧
      (c0.visits = 0 → (∀ c2 ∈ m.children, 0 < c2.visits → c2.rate ≤ 0) →
        Mct.best_action m = some c0.prevAct) := by
  constructor
  · intro h
    simp [Mct.best_action, h]
  · intro c0 cs h
    refine ⟨?_, ?_⟩
    swap
    · intro h0 hall
      simp only [Mct.best_action, h]
      rw [if_pos h0,
        bestLoop_of_no_improvement cs c0 0 fun x hx hvx =>
          hall x (by rw [h]; exact List.mem_cons_of_mem c0 hx) hvx]
    simp only [Mct.best_action, h]
    by_cases h0 : c0.visits = 0
    · rw [if_pos h0]
      rcases bestLoop_spec cs c0 0 with ⟨heq, hall⟩ | ⟨d, hd, heq, hv, hlt, hall⟩
      · refine ⟨c0, by rw [heq], Or.inl rfl, Or.inr ⟨rfl, h0, ?_⟩⟩
        intro c2 hc2 hvc2
        rcases List.mem_cons.mp hc2 with rfl | hc2b
        · omega
        · exact hall c2 hc2b hvc2
      · refine ⟨d, by rw [heq], Or.inr hd, Or.inl ⟨hv, ?_⟩⟩
        intro c2 hc2 hvc2
        rcases List.mem_cons.mp hc2 with rfl | hc2b
        · omega
        · exact hall c2 hc2b hvc2
    · rw [if_neg h0]
      rcases bestLoop_spec cs c0 c0.rate with ⟨heq, hall⟩ | ⟨d, hd, heq, hv, hlt, hall⟩
      · refine ⟨c0, by rw [heq], Or.inl rfl, Or.inl ⟨Nat.pos_of_ne_zero h0, ?_⟩⟩
        intro c2 hc2 hvc2
        rcases List.mem_cons.mp hc2 with rfl | hc2b
        · exact le_refl c2.rate
        · exact hall c2 hc2b hvc2
      · refine ⟨d, by rw [heq], Or.inr hd, Or.inl ⟨hv, ?_⟩⟩
        intro c2 hc2 hvc2
        rcases List.mem_cons.mp hc2 with rfl | hc2b
        · exact le_of_lt hlt
        · exact hall c2 hc2b hvc2

/-- Witness for C3: on a root with no children best_action fails (the
modelled panic), and on exM -- unvisited first child, one visited child of
zero rate -- the unvisited first child's action is returned. -/
theorem best_action_characterization_witness :
    Mct.best_action exEmptyRoot = none ∧
    Mct.best_action exM = some exN0.prevAct := by
  constructor
  · exact (best_action_characterization exEmptyRoot).1 rfl
  · exact ((best_action_characterization exM).2 exN0 [exN1] rfl).2 rfl
      (by simp [exM, exN0, exN1, Node.rate, Node.visits_mk, Node.wins_mk])

/-- Rational bounds on log(5/4), from the Taylor series of log with eight
terms at x = 1/5. -/
theorem log_five_fourths_bounds :
    (0.2231428 : ℝ) < Real.log (5 / 4) ∧ Real.log (5 / 4) < 0.2231442 := by
  have habs : |(1 / 5 : ℝ)| = 1 / 5 := abs_of_pos (by norm_num)
  have hS := Real.abs_log_sub_add_sum_range_le
    (x := (1 / 5 : ℝ)) (by rw [habs]; norm_num) 8
  rw [habs] at hS
  have hsum : (∑ i ∈ Finset.range 8, (1 / 5 : ℝ) ^ (i + 1) / (i + 1))
      = 14643791 / 65625000 := by
    norm_num [Finset.sum_range_succ]
  have h45 : Real.log (1 - 1 / 5 : ℝ) = - Real.log (5 / 4) := by
    rw [show (1 - 1 / 5 : ℝ) = ((5 : ℝ) / 4)⁻¹ by norm_num, Real.log_inv]
  have hbd : ((1 / 5 : ℝ) ^ (8 + 1) / (1 - 1 / 5)) = 1 / 1562500 := by norm_num
  rw [hsum, h45, hbd, abs_le] at hS
  obtain ⟨hS1, hS2⟩ := hS
  constructor
  · have haux : (0.2231428 : ℝ) < 14643791 / 65625000 - 1 / 1562500 := by norm_num
    linarith
  · have haux : (14643791 / 65625000 + 1 / 1562500 : ℝ) < 0.2231442 := by norm_num
    linarith

/-- Rational bounds on log 10 = 3 log 2 + log(5/4), accurate to about 1e-6. -/
theorem log_ten_bounds :
    (2.3025843 : ℝ) < Real.log 10 ∧ Real.log 10 < 2.3025858 := by
  have hsplit : Real.log 10 = 3 * Real.log 2 + Real.log (5 / 4) := by
    rw [show (10 : ℝ) = 2 ^ 3 * (5 / 4) by norm_num,
      Real.log_mul (by norm_num) (by norm_num), Real.log_pow]
    norm_num
  rw [hsplit]
  constructor <;>
    linarith [Real.log_two_gt_d9, Real.log_two_lt_d9,
      log_five_fourths_bounds.1, log_five_fourths_bounds.2]

/-- Rational bounds on the UCB1 value at wins 3, visits 4, parent visits 10:
it lies strictly between 1.822982 and 1.822985 (so it is about 1.82298, not
within 1e-6 of 1.823). -/
theorem priority_ref_bounds :
    (1.822982 : ℝ) < 3 / 4 + Real.sqrt (2 * Real.log 10 / 4) ∧
    3 / 4 + Real.sqrt (2 * Real.log 10 / 4) < 1.822985 := by
  obtain ⟨hl, hu⟩ := log_ten_bounds
  constructor
  · have h1 : (1.072982 : ℝ) < Real.sqrt (2 * Real.log 10 / 4) := by
      rw [Real.lt_sqrt (by norm_num)]
      have hsq : ((1.072982 : ℝ)) ^ 2 = 1.151290372324 := by norm_num
      linarith
    linarith
  · have h2 : Real.sqrt (2 * Real.log 10 / 4) < (1.072985 : ℝ) := by
      rw [Real.sqrt_lt' (by norm_num)]
      have hsq : ((1.072985 : ℝ)) ^ 2 = 1.151296810225 := by norm_num
      linarith
    linarith

/-- C5 counterexample: the default priority at wins 3, visits 4,
parent_visits 10 equals 3/4 + sqrt(2 ln 10 / 4) (about 1.8229830), and that
value is NOT within 1e-6 of 1.823: the claimed reference check fails even
under exact real arithmetic. -/
theorem priority_reference_value_off :
    priority_default 3 4 10
      = (((3 : ℝ) / 4 + Real.sqrt (2 * Real.log 10 / 4) : ℝ) : WithTop ℝ) ∧
    ¬ |((3 : ℝ) / 4 + Real.sqrt (2 * Real.log 10 / 4)) - 1.823| ≤ 1 / 1000000 := by
  constructor
  · unfold priority_default
    rw [if_neg (by norm_num)]
    norm_num
  · obtain ⟨hl, hu⟩ := priority_ref_bounds
    intro hcon
    rw [abs_le] at hcon
    obtain ⟨hc1, hc2⟩ := hcon
    linarith

/-- C5 (corrected): the default Game::priority is +infinity iff visits is 0;
otherwise it is the finite value wins/visits + sqrt(2) * sqrt(ln(parent
visits)/visits) (the UCB1 formula with the default bias constant sqrt 2,
which the code folds into sqrt(2 * ln(parent_visits)/visits)); at the
reference input wins 3, visits 4, parent_visits 10 the value is within 2e-5
of 1.823 (it is about 1.8229830, so the tolerance 1e-6 of the original claim
is too tight, but 2e-5 holds). -/
theorem priority_inf_iff_and_reference :
    (∀ win visits parentVisits : ℕ,
      priority_default win visits parentVisits = ⊤ ↔ visits = 0) ∧
    (∀ win visits parentVisits : ℕ, visits ≠ 0 →
      priority_default win visits parentVisits
        = (((win : ℝ) / (visits : ℝ)
            + Real.sqrt 2 * Real.sqrt (Real.log (parentVisits : ℝ) / (visits : ℝ)) : ℝ)
          : WithTop ℝ)) ∧
    priority_default 3 4 10
      = (((3 : ℝ) / 4 + Real.sqrt (2 * Real.log 10 / 4) : ℝ) : WithTop ℝ) ∧
    |((3 : ℝ) / 4 + Real.sqrt (2 * Real.log 10 / 4)) - 1.823| ≤ 2 / 100000 := by
  refine ⟨?_, ?_, ?_, ?_⟩
  · intro w v pv
    unfold priority_default
    constructor
    · intro h
      by_contra hv
      rw [if_neg hv] at h
      exact WithTop.coe_ne_top h
    · intro h
      rw [if_pos h]
  · intro w v pv hv
    unfold priority_default
    rw [if_neg hv]
    congr 1
    rw [mul_div_assoc, Real.sqrt_mul (by norm_num : (0 : ℝ) ≤ 2)]
  · unfold priority_default
    rw [if_neg (by norm_num)]
    norm_num
  · obtain ⟨hl, hu⟩ := priority_ref_bounds
    rw [abs_le]
    constructor <;> linarith

/-- Witness for C5: visits 0 gives infinity, and at the reference input the
finite branch is taken with the bias-constant form of the formula. -/
theorem priority_inf_iff_and_reference_witness :
    priority_default 0 0 7 = ⊤ ∧
    priority_default 3 4 10
      = ((((3 : ℕ) : ℝ) / ((4 : ℕ) : ℝ)
          + Real.sqrt 2 * Real.sqrt (Real.log ((10 : ℕ) : ℝ) / ((4 : ℕ) : ℝ)) : ℝ)
        : WithTop ℝ) :=
  ⟨(priority_inf_iff_and_reference.1 0 0 7).mpr rfl,
   priority_inf_iff_and_reference.2.1 3 4 10 (by decide)⟩

end Mcts
